import Mathlib

/-!
Verification of the extraction-and-routing engine of the
outlook-invoice-automation repository.

The Python sources are shallowly embedded over `List Char` / `String`:
pure string functions become Lean functions, the regular expressions of
`step3_extract_company_invoice.py` and `step4_pdf_pod.py` become an
executable backtracking matcher over a small regex AST (alternatives,
character-class repetitions, lookaheads, word boundaries and one capture
group are the only features those regexes use), with Python's
leftmost-first backtracking priority.  Case folding, the whitespace
class and the word-character class are modelled over the alphabet the
program actually manipulates: ASCII plus the Hungarian accented letters
appearing in the sources.
-/

namespace InvoiceAuto

/-- Case table of the modelled alphabet: each pair is
(uppercase, lowercase).  It models Python's `str.upper` / `str.lower`
on ASCII letters and on the Hungarian accented letters used by the
program. -/
def caseTable : List (Char × Char) :=
  [('A', 'a'), ('B', 'b'), ('C', 'c'), ('D', 'd'), ('E', 'e'), ('F', 'f'),
   ('G', 'g'), ('H', 'h'), ('I', 'i'), ('J', 'j'), ('K', 'k'), ('L', 'l'),
   ('M', 'm'), ('N', 'n'), ('O', 'o'), ('P', 'p'), ('Q', 'q'), ('R', 'r'),
   ('S', 's'), ('T', 't'), ('U', 'u'), ('V', 'v'), ('W', 'w'), ('X', 'x'),
   ('Y', 'y'), ('Z', 'z'),
   ('Á', 'á'), ('É', 'é'), ('Í', 'í'), ('Ó', 'ó'), ('Ö', 'ö'), ('Ő', 'ő'),
   ('Ú', 'ú'), ('Ü', 'ü'), ('Ű', 'ű')]

/-- Python `str.lower`, per character, over the modelled alphabet. -/
def pyLower (c : Char) : Char :=
  match caseTable.find? (fun p => p.1 == c) with
  | some p => p.2
  | none => c

/-- Python `str.upper`, per character, over the modelled alphabet. -/
def pyUpper (c : Char) : Char :=
  match caseTable.find? (fun p => p.2 == c) with
  | some p => p.1
  | none => c

/-- Python's regex / `str.strip` whitespace class `\s`
(space, tab, newline, carriage return, vertical tab, form feed). -/
def isPySpace (c : Char) : Bool :=
  c == ' ' || c == '\t' || c == '\n' || c == '\r' ||
  c == '\x0b' || c == '\x0c'

/-- A hyphen test, used by `_normalize_pod`. -/
def isHy (c : Char) : Bool := c == '-'

/-- One step of `re.sub(r"-\x7b2,\x7d", "-", s)`: collapse every run of two
or more hyphens to a single hyphen (a run of length one is unchanged,
so collapsing every run is the same substitution). -/
def collapseHy : List Char → List Char
  | [] => []
  | [c] => [c]
  | c :: d :: rest =>
    if isHy c && isHy d then collapseHy (d :: rest)
    else c :: collapseHy (d :: rest)

/-- Python `s.strip(chars)`: drop class-`p` characters from both
ends. -/
def stripBy (p : Char → Bool) (l : List Char) : List Char :=
  (l.dropWhile p).rdropWhile p

/-- Python `s.strip("-")`: drop hyphens from both ends. -/
def stripHy (l : List Char) : List Char := stripBy isHy l

/-- `_normalize_pod` from `step4_pdf_pod.py`, over `List Char`:
uppercase, remove all whitespace (`re.sub(r"\s+", "", s)`), collapse
repeated hyphens, trim hyphens from start and end. -/
def normChars (l : List Char) : List Char :=
  stripHy (collapseHy (List.filter (fun c => !isPySpace c) (l.map pyUpper)))

/-- `_normalize_pod` from `step4_pdf_pod.py` (the `(s or "")` guard of the
source only converts `None` to `""`; the embedding takes the string
directly). -/
def normalize_pod (s : String) : String :=
  String.mk (normChars s.data)

/-- No two adjacent hyphens anywhere in the list. -/
def HyFree (l : List Char) : Prop :=
  List.Chain' (fun a b => ¬(isHy a = true ∧ isHy b = true)) l

/-- No two adjacent whitespace characters anywhere in the list. -/
def WsFree (l : List Char) : Prop :=
  List.Chain' (fun a b => ¬(isPySpace a = true ∧ isPySpace b = true)) l

/-!
### A backtracking regex matcher

The regexes of the sources use: literal characters (case-insensitive),
character classes, greedy and lazy class repetitions (all repetitions in
the source regexes are over single-character classes), optional pieces,
lookaheads, word boundaries and at most one capture group.  `ends`
enumerates the possible end positions of a match starting at `i`, in
Python's backtracking priority order (earlier alternatives first,
greedy repetitions longest first, lazy ones shortest first), together
with the capture-group span when one was traversed. -/

/-- Regex AST covering the constructs used by the source patterns. -/
inductive RE where
  | eps : RE
  | cls (p : Char → Bool) : RE
  | seq (a b : RE) : RE
  | alt (a b : RE) : RE
  | repG (p : Char → Bool) (lo : Nat) (hi : Option Nat) : RE
  | repL (p : Char → Bool) (lo : Nat) (hi : Option Nat) : RE
  | look (r : RE) : RE
  | wb : RE
  | grp (r : RE) : RE

/-- Greedy optional piece `r?`. -/
def REopt (r : RE) : RE := RE.alt r RE.eps

/-- A case-insensitive literal character, as a one-character class. -/
def chI (c : Char) : RE := RE.cls (fun x => pyLower x == pyLower c)

/-- A case-insensitive literal word, as a sequence of `chI` atoms. -/
def strCI (s : String) : RE := s.data.foldr (fun c r => RE.seq (chI c) r) RE.eps

/-- Length of the maximal run of class-`p` characters starting at
position `i`. -/
def runLen (p : Char → Bool) (t : List Char) (i : Nat) : Nat :=
  ((t.drop i).takeWhile p).length

/-- `hi, hi-1, ..., lo` (empty when `hi < lo`): greedy priority order. -/
def descRange (lo hi : Nat) : List Nat :=
  (List.range (hi + 1 - lo)).map (fun j => hi - j)

/-- `lo, lo+1, ..., hi` (empty when `hi < lo`): lazy priority order. -/
def ascRange (lo hi : Nat) : List Nat :=
  (List.range (hi + 1 - lo)).map (fun j => lo + j)

/-- Python's `\w` test at a position (false past either end of the
text). -/
def isWordAt (t : List Char) (i : Nat) : Bool :=
  match t[i]? with
  | some c => c.isAlphanum || c == '_' || (caseTable.any (fun q => q.1 == c || q.2 == c))
  | none => false

/-- Python's `\b`: the two sides of position `i` disagree on `\w`. -/
def wordBoundary (t : List Char) (i : Nat) : Bool :=
  (if i = 0 then false else isWordAt t (i - 1)) != isWordAt t i

/-- All ways a regex can match starting at position `i`: the list of
pairs (end position, optional capture span), in backtracking priority
order. -/
def ends : RE → List Char → Nat → List (Nat × Option (Nat × Nat))
  | RE.eps, _, i => [(i, none)]
  | RE.cls p, t, i =>
    match t[i]? with
    | some c => if p c then [(i + 1, none)] else []
    | none => []
  | RE.seq a b, t, i =>
    (ends a t i).flatMap (fun x => (ends b t x.1).map (fun y => (y.1, x.2.or y.2)))
  | RE.alt a b, t, i => ends a t i ++ ends b t i
  | RE.repG p lo hi, t, i =>
    (descRange (i + lo) (i + min (runLen p t i) (hi.getD (runLen p t i)))).map
      (fun j => (j, none))
  | RE.repL p lo hi, t, i =>
    (ascRange (i + lo) (i + min (runLen p t i) (hi.getD (runLen p t i)))).map
      (fun j => (j, none))
  | RE.look r, t, i => if (ends r t i).isEmpty then [] else [(i, none)]
  | RE.wb, t, i => if wordBoundary t i then [(i, none)] else []
  | RE.grp r, t, i => (ends r t i).map (fun x => (x.1, some (i, x.1)))

/-- `re.search`: the first match in leftmost, backtracking-priority
order: start position, end position and capture span. -/
def searchPos (r : RE) (t : List Char) : Option (Nat × Nat × Option (Nat × Nat)) :=
  (List.range (t.length + 1)).findSome? (fun i =>
    match ends r t i with
    | [] => none
    | x :: _ => some (i, x.1, x.2))

/-- The text of the first match: the capture group when the pattern has
one (as in `findall` with one group), the whole match otherwise. -/
def searchCap (r : RE) (t : List Char) : Option (List Char) :=
  match searchPos r t with
  | none => none
  | some (i, e, none) => some ((t.drop i).take (e - i))
  | some (_, _, some (a, b)) => some ((t.drop a).take (b - a))

/-- Whether a regex contains no capture group. -/
def noGrp : RE → Bool
  | RE.eps => true
  | RE.cls _ => true
  | RE.seq a b => noGrp a && noGrp b
  | RE.alt a b => noGrp a && noGrp b
  | RE.repG _ _ _ => true
  | RE.repL _ _ _ => true
  | RE.look r => noGrp r
  | RE.wb => true
  | RE.grp _ => false

/-! ### The patterns of `step4_pdf_pod.py` -/

/-- Sequence a list of regex pieces. -/
def seqs (l : List RE) : RE := l.foldr RE.seq RE.eps

/-- The characters of the class `[A-Z0-9\-]` under `re.IGNORECASE`
(`IDCH` in the source). -/
def idchChars : List Char :=
  ("ABCDEFGHIJKLMNOPQRSTUVWXYZabcdefghijklmnopqrstuvwxyz0123456789-").data

/-- Class test for `IDCH` = `[A-Z0-9\-]` with `re.IGNORECASE`. -/
def isIdch (c : Char) : Bool := List.elem c idchChars

/-- The characters of `[A-Z0-9]` under `re.IGNORECASE`. -/
def alnumChars : List Char :=
  ("ABCDEFGHIJKLMNOPQRSTUVWXYZabcdefghijklmnopqrstuvwxyz0123456789").data

/-- Class test for `[A-Z0-9]` with `re.IGNORECASE`. -/
def isAlnumCi (c : Char) : Bool := List.elem c alnumChars

/-- Class test for `\d` (ASCII digits in the modelled alphabet). -/
def isDigitC (c : Char) : Bool := List.elem c ("0123456789").data

/-- `\s*`. -/
def wsStar : RE := RE.repG isPySpace 0 none

/-- `\s+`. -/
def wsPlus : RE := RE.repG isPySpace 1 none

/-- The Hungarian label regex `LABEL` of `step4_pdf_pod.py`:
`m[ée]r[őo]?(?:si)?\s*pont\s+azonos[ií]t[óo](?:ja)?\s*:?\s*`,
case-insensitively. -/
def label_re : RE :=
  seqs [chI 'm',
        RE.cls (fun c => pyLower c == 'é' || pyLower c == 'e'),
        chI 'r',
        REopt (RE.cls (fun c => pyLower c == 'ő' || pyLower c == 'o')),
        REopt (strCI "si"),
        wsStar,
        strCI "pont",
        wsPlus,
        strCI "azonos",
        RE.cls (fun c => pyLower c == 'i' || pyLower c == 'í'),
        chI 't',
        RE.cls (fun c => pyLower c == 'ó' || pyLower c == 'o'),
        REopt (strCI "ja"),
        wsStar,
        REopt (chI ':'),
        wsStar]

/-- The token part shared by patterns 1 and 3:
`HU(?=IDCH*\d)(?=IDCH*-)IDCH\x7b6,40\x7d[A-Z0-9]`. -/
def coreHU : RE :=
  seqs [chI 'H', chI 'U',
        RE.look (RE.seq (RE.repG isIdch 0 none) (RE.cls isDigitC)),
        RE.look (RE.seq (RE.repG isIdch 0 none) (RE.cls isHy)),
        RE.repG isIdch 6 (some 40),
        RE.cls isAlnumCi]

/-- The token part shared by patterns 2 and 4:
`39(?=IDCH*\d)IDCH\x7b6,40\x7d[A-Z0-9]`. -/
def core39 : RE :=
  seqs [chI '3', chI '9',
        RE.look (RE.seq (RE.repG isIdch 0 none) (RE.cls isDigitC)),
        RE.repG isIdch 6 (some 40),
        RE.cls isAlnumCi]

/-- Pattern 1: after the label, an `HU...` value (one capture group). -/
def PAT1 : RE := RE.seq label_re (RE.grp coreHU)

/-- Pattern 2: after the label, a `39...` value (one capture group). -/
def PAT2 : RE := RE.seq label_re (RE.grp core39)

/-- Pattern 3: `\bHU...\b` anywhere (no group in the source; the whole
match is wrapped as the capture, matching `findall`'s whole-match
semantics). -/
def PAT3 : RE := RE.grp (seqs [RE.wb, coreHU, RE.wb])

/-- Pattern 4: `\b39...\b` anywhere (whole match wrapped as capture). -/
def PAT4 : RE := RE.grp (seqs [RE.wb, core39, RE.wb])

/-- The `PATTERNS` list, in priority order. -/
def PATTERNS : List RE := [PAT1, PAT2, PAT3, PAT4]

/-- Python's `pod.startswith("HU") or pod.startswith("39")`. -/
def startsHU39 (l : List Char) : Bool :=
  List.isPrefixOf ['H', 'U'] l || List.isPrefixOf ['3', '9'] l

/-- The pattern loop inside `_find_pod_in_text`: try each pattern; on a
match, normalize it and return it when its prefix passes the check,
otherwise fall through to the next pattern. -/
def findLoop : List RE → List Char → Option String
  | [], _ => none
  | p :: ps, t =>
    match searchCap p t with
    | none => findLoop ps t
    | some m =>
      let pod := normChars m
      if startsHU39 pod then some (String.mk pod) else findLoop ps t

/-- `_find_pod_in_text` from `step4_pdf_pod.py` (the `if not text`
guard, then the pattern loop). -/
def find_pod_in_text (text : String) : Option String :=
  if text = "" then none else findLoop PATTERNS text.data

/-- The first raw capture over a pattern list: the first pattern with a
match, its first match, with no prefix-validity check. -/
def firstRawCapture : List RE → List Char → Option (List Char)
  | [], _ => none
  | p :: ps, t =>
    match searchCap p t with
    | some m => some m
    | none => firstRawCapture ps t

/-- The all-pages scan of `extract_pod_from_pdf` (a found POD is
returned only when truthy, i.e. non-empty). -/
def scanPages : List String → Option String
  | [] => none
  | p :: rest =>
    match find_pod_in_text p with
    | some v => if v = "" then scanPages rest else some v
    | none => scanPages rest

/-- `extract_pod_from_pdf` from `step4_pdf_pod.py`, over the list of
per-page extracted texts (PDF parsing is an excluded collaborator):
prefer page 2 (index 1) when the document has at least 2 pages, then
fall back to scanning all pages in order. -/
def extract_pod_from_pdf (pages : List String) : Option String :=
  match (if 2 ≤ pages.length then find_pod_in_text (pages.getD 1 "") else none) with
  | some v => if v = "" then scanPages pages else some v
  | none => scanPages pages

/-- Modelled from the spec (for comparison with the code): the claimed
locator whose page-2 phase applies only the two after-label patterns,
before the all-pages scan with all four patterns. -/
def extract_pod_spec_page2LabelOnly (pages : List String) : Option String :=
  match (if 2 ≤ pages.length then
          (if (pages.getD 1 "") = "" then none
           else findLoop [PAT1, PAT2] (pages.getD 1 "").data)
         else none) with
  | some v => if v = "" then scanPages pages else some v
  | none => scanPages pages

/-! ### The patterns of `step3_extract_company_invoice.py` -/

/-- Python `str.strip()`: drop whitespace from both ends. -/
def pyStrip (l : List Char) : List Char := stripBy isPySpace l

/-- `RE_GREET`: `Tisztelt\s+(?P<company>.+?)\s*!` with
`re.IGNORECASE | re.DOTALL` (so `.` matches every character). -/
def RE_GREET : RE :=
  seqs [strCI "Tisztelt", wsPlus,
        RE.grp (RE.repL (fun _ => true) 1 none),
        wsStar, chI '!']

/-- `RE_INVOICE`:
`küldjük\s+a\s+(\d\x7b9,30\x7d)\s+számú\s+elektronikus\s+számláját`
with `re.IGNORECASE`. -/
def RE_INVOICE : RE :=
  seqs [strCI "küldjük", wsPlus, chI 'a', wsPlus,
        RE.grp (RE.repG isDigitC 9 (some 30)),
        wsPlus, strCI "számú", wsPlus, strCI "elektronikus", wsPlus,
        strCI "számláját"]

/-- `extract_company` from `step3_extract_company_invoice.py`. -/
def extract_company (body : String) : Option String :=
  if body = "" then none
  else
    match searchCap RE_GREET body.data with
    | none => none
    | some m => some (String.mk (pyStrip m))

/-- `extract_invoice` from `step3_extract_company_invoice.py`. -/
def extract_invoice (body : String) : Option String :=
  if body = "" then none
  else
    match searchCap RE_INVOICE body.data with
    | none => none
    | some m => some (String.mk (pyStrip m))

/-! ### `main.py`: routing, exception list, file names -/

/-- The configured output directory for electricity invoices. -/
def OUT_ELECTRICITY : String := "F:\\[Company_Path]\\Electricity\\Invoices\\Incoming"

/-- The configured output directory for gas invoices. -/
def OUT_GAS : String := "F:\\[Company_Path]\\Gas\\Commercial_Invoices\\Incoming"

/-- The configured exception keyword list. -/
def EXCEPT_KEYWORDS : List String :=
  ["[Company_A]", "[Company_B]", "[Company_C]", "[Company_D]", "[Company_E]"]

/-- Python's substring test `needle in hay`. -/
def isSubstrOf (needle : List Char) : List Char → Bool
  | [] => needle.isEmpty
  | h :: t => needle.isPrefixOf (h :: t) || isSubstrOf needle t

/-- `is_exception_company` from `main.py`, parameterized by the
configured keyword list (the source reads the global
`EXCEPT_KEYWORDS`): falsy name (absent or empty) is never an
exception; otherwise any case-insensitive substring hit counts. -/
def is_exception_company (keywords : List String) (name : Option String) : Bool :=
  match name with
  | none => false
  | some n =>
    if n = "" then false
    else keywords.any (fun kw => isSubstrOf (kw.data.map pyLower) (n.data.map pyLower))

/-- The reserved-character class `[\\/:*?"<>|]` of `safe_filename`. -/
def reservedChars : List Char := ['\\', '/', ':', '*', '?', '\"', '<', '>', '|']

/-- Membership in the reserved-character class. -/
def isReserved (c : Char) : Bool := List.elem c reservedChars

/-- `re.sub` step 1 of `safe_filename`: replace every run of reserved
characters with a single space. -/
def subReserved : List Char → List Char
  | [] => []
  | [c] => if isReserved c then [' '] else [c]
  | c :: d :: rest =>
    if isReserved c then
      if isReserved d then subReserved (d :: rest)
      else ' ' :: subReserved (d :: rest)
    else c :: subReserved (d :: rest)

/-- `re.sub` step 2 of `safe_filename`: collapse every whitespace run
to a single space. -/
def collapseWs : List Char → List Char
  | [] => []
  | [c] => if isPySpace c then [' '] else [c]
  | c :: d :: rest =>
    if isPySpace c then
      if isPySpace d then collapseWs (d :: rest)
      else ' ' :: collapseWs (d :: rest)
    else c :: collapseWs (d :: rest)

/-- `safe_filename` from `main.py`: replace runs of Windows-reserved
characters by one space, collapse whitespace runs, trim. -/
def safe_filename (filename : String) : String :=
  String.mk (pyStrip (collapseWs (subReserved filename.data)))

/-- `route_folder` from `main.py`: falsy POD routes nowhere; `HU`
prefix (after uppercasing) routes to electricity, `39` to gas, and any
other prefix falls back to electricity. -/
def route_folder (pod : Option String) : Option String :=
  match pod with
  | none => none
  | some p =>
    if p = "" then none
    else
      let pu := p.data.map pyUpper
      if List.isPrefixOf ['H', 'U'] pu then some OUT_ELECTRICITY
      else if List.isPrefixOf ['3', '9'] pu then some OUT_GAS
      else some OUT_ELECTRICITY

/-- Decimal digit character. -/
def decDigit (d : Nat) : Char :=
  match d with
  | 0 => '0' | 1 => '1' | 2 => '2' | 3 => '3' | 4 => '4'
  | 5 => '5' | 6 => '6' | 7 => '7' | 8 => '8' | _ => '9'

/-- Fuel-driven decimal rendering (the fuel is an upper bound on the
value, so it never runs out). -/
def natReprAux : Nat → Nat → List Char
  | 0, _ => []
  | fuel + 1, n =>
    if n < 10 then [decDigit n]
    else natReprAux fuel (n / 10) ++ [decDigit (n % 10)]

/-- Decimal rendering of a natural number, as in Python's f-string
interpolation of `counter`. -/
def natRepr (n : Nat) : List Char := natReprAux (n + 1) n

/-- Decimal parsing, used to prove `natRepr` injective. -/
def reprToNat (l : List Char) : Nat :=
  l.foldl (fun a c => a * 10 + (c.toNat - 48)) 0

/-- `os.path.splitext`, modelled as splitting at the last dot of the
string (the paths built by `process_attachment` always end in
`".pdf"`, so the basename/leading-dot refinements of the library
function cannot matter here). -/
def splitext (p : String) : String × String :=
  if (p.data.reverse.takeWhile (fun c => !(c == '.'))).length = p.data.reverse.length
  then (p, "")
  else
    (String.mk ((p.data.reverse.drop
        ((p.data.reverse.takeWhile (fun c => !(c == '.'))).length + 1)).reverse),
     String.mk ('.' :: (p.data.reverse.takeWhile (fun c => !(c == '.'))).reverse))

/-- The `n`-th candidate path of the collision loop in
`process_attachment`: the original path for `n = 0`, and
`root ++ " (" ++ n ++ ")" ++ ext` for `n ≥ 1`. -/
def candidate (output_path : String) (n : Nat) : String :=
  if n = 0 then output_path
  else (splitext output_path).1 ++ " (" ++ String.mk (natRepr n) ++ ")" ++
       (splitext output_path).2

/-- The `while os.path.exists(final_path)` loop of `process_attachment`,
with the existing files given as a list and fuel proven sufficient
below (the loop always stops at the first free candidate before the
fuel runs out). -/
def find_free_loop (existing : List String) (op : String) : Nat → Nat → String
  | 0, n => candidate op n
  | fuel + 1, n =>
    if candidate op n ∈ existing then find_free_loop existing op fuel (n + 1)
    else candidate op n

/-- Steps 7–8 of `process_attachment`: resolve the final collision-free
path for a candidate output path. -/
def final_path (existing : List String) (op : String) : String :=
  find_free_loop existing op (existing.length + 1) 0

/-- The full name-building of `process_attachment` step 7: sanitized
company, POD and invoice joined by underscores under the destination
directory, then collision-resolved. -/
def build_final_path (existing : List String)
    (output_directory company pod invoice : String) : String :=
  final_path existing
    (output_directory ++ "\\" ++
      (safe_filename company ++ "_" ++ pod ++ "_" ++ invoice ++ ".pdf"))

/-! ### Supporting lemmas and claim theorems -/

theorem mem_ends_eps {t : List Char} {i e : Nat} {c : Option (Nat × Nat)}
    (h : (e, c) ∈ ends RE.eps t i) : e = i ∧ c = none := by
  rw [ends] at h
  simp at h
  exact h

theorem mem_ends_cls {p : Char → Bool} {t : List Char} {i e : Nat}
    {c : Option (Nat × Nat)} (h : (e, c) ∈ ends (RE.cls p) t i) :
    c = none ∧ e = i + 1 ∧ ∃ ch, t[i]? = some ch ∧ p ch = true := by
  rw [ends] at h
  cases ht : t[i]? with
  | none =>
    rw [ht] at h
    simp at h
  | some ch =>
    rw [ht] at h
    by_cases hp : p ch = true
    · simp only [hp, if_true, List.mem_singleton, Prod.mk.injEq] at h
      exact ⟨h.2, h.1, ch, rfl, hp⟩
    · simp [hp] at h

theorem mem_ends_seq {a b : RE} {t : List Char} {i e : Nat}
    {c : Option (Nat × Nat)} (h : (e, c) ∈ ends (RE.seq a b) t i) :
    ∃ j c1 c2, (j, c1) ∈ ends a t i ∧ (e, c2) ∈ ends b t j ∧ c = c1.or c2 := by
  rw [ends, List.mem_flatMap] at h
  obtain ⟨⟨j, c1⟩, hx, hmem⟩ := h
  rw [List.mem_map] at hmem
  obtain ⟨⟨e2, c2⟩, hy, heq⟩ := hmem
  cases heq
  exact ⟨j, c1, c2, hx, hy, rfl⟩

theorem mem_ends_look {r : RE} {t : List Char} {i e : Nat}
    {c : Option (Nat × Nat)} (h : (e, c) ∈ ends (RE.look r) t i) :
    e = i ∧ c = none := by
  rw [ends] at h
  split at h
  · simp at h
  · simp at h
    exact h

theorem mem_ends_wb {t : List Char} {i e : Nat} {c : Option (Nat × Nat)}
    (h : (e, c) ∈ ends RE.wb t i) : e = i ∧ c = none := by
  rw [ends] at h
  split at h
  · simp at h
    exact h
  · simp at h

theorem mem_ends_grp {r : RE} {t : List Char} {i e : Nat}
    {c : Option (Nat × Nat)} (h : (e, c) ∈ ends (RE.grp r) t i) :
    c = some (i, e) ∧ ∃ c2, (e, c2) ∈ ends r t i := by
  rw [ends, List.mem_map] at h
  obtain ⟨⟨j, c2⟩, hj, heq⟩ := h
  cases heq
  exact ⟨rfl, c2, hj⟩

theorem mem_descRange {lo hi x : Nat} (h : x ∈ descRange lo hi) :
    lo ≤ x ∧ x ≤ hi := by
  rw [descRange, List.mem_map] at h
  obtain ⟨j, hj, rfl⟩ := h
  rw [List.mem_range] at hj
  omega

theorem mem_ends_repG {p : Char → Bool} {lo : Nat} {hi : Option Nat}
    {t : List Char} {i e : Nat} {c : Option (Nat × Nat)}
    (h : (e, c) ∈ ends (RE.repG p lo hi) t i) :
    c = none ∧ i + lo ≤ e ∧ e ≤ i + runLen p t i := by
  rw [ends, List.mem_map] at h
  obtain ⟨j, hj, heq⟩ := h
  cases heq
  have hb := mem_descRange hj
  have hmin : min (runLen p t i) (hi.getD (runLen p t i)) ≤ runLen p t i :=
    Nat.min_le_left _ _
  exact ⟨rfl, by omega, by omega⟩

theorem runLen_chars {p : Char → Bool} {t : List Char} {i x : Nat}
    (hx : i ≤ x) (h2 : x < i + runLen p t i) :
    ∃ cx, t[x]? = some cx ∧ p cx = true := by
  rw [runLen] at h2
  set w := (t.drop i).takeWhile p with hw
  have hk : x - i < w.length := by omega
  have hpre : w <+: t.drop i := List.takeWhile_prefix p
  have hmem : w.get ⟨x - i, hk⟩ ∈ w := List.getElem_mem hk
  have hp : p (w.get ⟨x - i, hk⟩) = true := List.mem_takeWhile_imp hmem
  have h1 : w[x - i]? = some (w.get ⟨x - i, hk⟩) := List.getElem?_eq_getElem hk
  have h2' : (t.drop i)[x - i]? = some (w.get ⟨x - i, hk⟩) := by
    obtain ⟨s, hs⟩ := hpre
    rw [← hs, List.getElem?_append_left hk]
    exact h1
  have h3 : t[x]? = some (w.get ⟨x - i, hk⟩) := by
    have hd := List.getElem?_drop t i (x - i)
    rw [hd] at h2'
    rw [show i + (x - i) = x by omega] at h2'
    exact h2'
  exact ⟨w.get ⟨x - i, hk⟩, h3, hp⟩

theorem noGrp_caps : ∀ {r : RE}, noGrp r = true →
    ∀ {t : List Char} {i e : Nat} {c : Option (Nat × Nat)},
      (e, c) ∈ ends r t i → c = none
  | RE.eps, _, t, i, e, c, h => (mem_ends_eps h).2
  | RE.cls p, _, t, i, e, c, h => (mem_ends_cls h).1
  | RE.seq a b, hg, t, i, e, c, h => by
    rw [noGrp, Bool.and_eq_true] at hg
    obtain ⟨j, c1, c2, h1, h2, rfl⟩ := mem_ends_seq h
    rw [noGrp_caps hg.1 h1, noGrp_caps hg.2 h2]
    rfl
  | RE.alt a b, hg, t, i, e, c, h => by
    rw [noGrp, Bool.and_eq_true] at hg
    rw [ends, List.mem_append] at h
    rcases h with h | h
    · exact noGrp_caps hg.1 h
    · exact noGrp_caps hg.2 h
  | RE.repG p lo hi, _, t, i, e, c, h => (mem_ends_repG h).1
  | RE.repL p lo hi, _, t, i, e, c, h => by
    rw [ends, List.mem_map] at h
    obtain ⟨j, hj, heq⟩ := h
    cases heq
    rfl
  | RE.look r, hg, t, i, e, c, h => (mem_ends_look h).2
  | RE.wb, _, t, i, e, c, h => (mem_ends_wb h).2
  | RE.grp r, hg, t, i, e, c, h => by
    rw [noGrp] at hg
    exact absurd hg (by simp)

theorem exists_of_findSome? {α β : Type} {f : α → Option β} {b : β} :
    ∀ {l : List α}, l.findSome? f = some b → ∃ a ∈ l, f a = some b
  | [], h => by simp [List.findSome?] at h
  | a :: l, h => by
    rw [List.findSome?_cons] at h
    cases ha : f a with
    | some v =>
      rw [ha] at h
      cases h
      exact ⟨a, List.mem_cons_self _ _, ha⟩
    | none =>
      rw [ha] at h
      obtain ⟨x, hx, hfx⟩ := exists_of_findSome? h
      exact ⟨x, List.mem_cons_of_mem _ hx, hfx⟩

theorem searchCap_mem {r : RE} {t : List Char} {m : List Char}
    (h : searchCap r t = some m) :
    ∃ i e c, (e, c) ∈ ends r t i ∧
      ((c = none ∧ m = (t.drop i).take (e - i)) ∨
       (∃ a b, c = some (a, b) ∧ m = (t.drop a).take (b - a))) := by
  rw [searchCap] at h
  cases hs : searchPos r t with
  | none =>
    rw [hs] at h
    simp at h
  | some x =>
    obtain ⟨i, e, c⟩ := x
    rw [hs] at h
    rw [searchPos] at hs
    obtain ⟨i0, _, hf⟩ := exists_of_findSome? hs
    cases hE : ends r t i0 with
    | nil =>
      rw [hE] at hf
      simp at hf
    | cons x rest =>
      rw [hE] at hf
      simp only [Option.some.injEq] at hf
      obtain ⟨rfl, rfl, rfl⟩ : i0 = i ∧ x.1 = e ∧ x.2 = c := by
        refine ⟨congrArg (fun y => y.1) hf, ?_, ?_⟩
        · exact congrArg (fun y => y.2.1) hf
        · exact congrArg (fun y => y.2.2) hf
      have hmem : (x.1, x.2) ∈ ends r t i0 := by
        rw [hE]
        exact List.mem_cons_self _ _
      cases hc : x.2 with
      | none =>
        rw [hc] at h
        simp only [Option.some.injEq] at h
        exact ⟨i0, x.1, none, hc ▸ hmem, Or.inl ⟨rfl, h.symm⟩⟩
      | some ab =>
        obtain ⟨a, b⟩ := ab
        rw [hc] at h
        simp only [Option.some.injEq] at h
        exact ⟨i0, x.1, some (a, b), hc ▸ hmem, Or.inr ⟨a, b, rfl, h.symm⟩⟩

theorem pyUpper_idem (c : Char) : pyUpper (pyUpper c) = pyUpper c := by
  have tbl : caseTable.all
      (fun p => caseTable.all (fun q => !(q.2 == p.1))) = true := by decide
  unfold pyUpper
  cases h : caseTable.find? (fun p => p.2 == c) with
  | none => simp [h]
  | some p =>
    have hp : p ∈ caseTable := List.mem_of_find?_eq_some h
    have hnone : caseTable.find? (fun q => q.2 == p.1) = none := by
      rw [List.find?_eq_none]
      intro q hq
      have := List.all_eq_true.mp (List.all_eq_true.mp tbl p hp) q hq
      simpa using this
    simp [hnone]

theorem mem_collapseHy {x : Char} : ∀ {l : List Char}, x ∈ collapseHy l → x ∈ l
  | [], h => by simp [collapseHy] at h
  | [c], h => by simpa [collapseHy] using h
  | c :: d :: rest, h => by
    rw [collapseHy] at h
    split at h
    · exact List.mem_cons_of_mem _ (mem_collapseHy h)
    · rcases List.mem_cons.mp h with h | h
      · exact h ▸ List.mem_cons_self _ _
      · exact List.mem_cons_of_mem _ (mem_collapseHy h)

theorem head?_collapseHy : ∀ (d : Char) (rest : List Char),
    (collapseHy (d :: rest)).head? = some d
  | d, [] => by simp [collapseHy]
  | d, e :: r => by
    rw [collapseHy]
    split
    · next hde =>
      have hd : d = '-' := by
        have := (Bool.and_eq_true _ _).mp hde |>.1
        simpa [isHy] using this
      have he : e = '-' := by
        have := (Bool.and_eq_true _ _).mp hde |>.2
        simpa [isHy] using this
      rw [head?_collapseHy e r, hd, he]
    · simp

theorem chain_collapseHy : ∀ l : List Char, HyFree (collapseHy l)
  | [] => by simp [collapseHy, HyFree]
  | [c] => by simp [collapseHy, HyFree]
  | c :: d :: rest => by
    rw [collapseHy]
    split
    · exact chain_collapseHy (d :: rest)
    · next hcd =>
      rw [HyFree, List.chain'_cons']
      refine ⟨?_, chain_collapseHy (d :: rest)⟩
      intro y hy
      rw [head?_collapseHy d rest] at hy
      cases hy
      intro ⟨h1, h2⟩
      exact hcd (by rw [h1, h2]; rfl)

theorem collapseHy_eq_self : ∀ {l : List Char}, HyFree l → collapseHy l = l
  | [], _ => rfl
  | [c], _ => rfl
  | c :: d :: rest, h => by
    rw [collapseHy]
    have hcd : ¬(isHy c = true ∧ isHy d = true) := by
      rw [HyFree, List.chain'_cons'] at h
      exact h.1 d rfl
    have htail : HyFree (d :: rest) := by
      rw [HyFree, List.chain'_cons'] at h
      exact h.2
    rw [if_neg (by simpa using hcd), collapseHy_eq_self htail]

theorem head?_dropWhile {p : Char → Bool} :
    ∀ {l : List Char} {x : Char}, (List.dropWhile p l).head? = some x → p x = false
  | [], x, h => by simp [List.dropWhile] at h
  | c :: rest, x, h => by
    rw [List.dropWhile_cons] at h
    by_cases hc : p c
    · rw [if_pos hc] at h
      exact head?_dropWhile h
    · rw [if_neg hc] at h
      cases h
      simpa using hc

theorem stripBy_subset {p : Char → Bool} {l : List Char} : stripBy p l ⊆ l := by
  intro x hx
  have h1 : x ∈ List.dropWhile p l :=
    (List.rdropWhile_prefix p (List.dropWhile p l)).subset hx
  exact (List.dropWhile_suffix p).subset h1

theorem stripBy_head {p : Char → Bool} {l : List Char} {x : Char}
    (h : (stripBy p l).head? = some x) : p x = false := by
  unfold stripBy at h
  obtain ⟨t, ht⟩ := List.rdropWhile_prefix p (List.dropWhile p l)
  have hne : List.rdropWhile p (List.dropWhile p l) ≠ [] := by
    intro hnil
    rw [hnil] at h
    simp at h
  have h2 : (List.dropWhile p l).head? = some x := by
    rw [← ht, List.head?_append_of_ne_nil _ hne, h]
  exact head?_dropWhile h2

theorem stripBy_last {p : Char → Bool} {l : List Char} {x : Char}
    (h : (stripBy p l).getLast? = some x) : p x = false := by
  unfold stripBy at h
  set m := List.dropWhile p l with hm
  have hne : List.rdropWhile p m ≠ [] := by
    intro hnil
    rw [hnil] at h
    simp at h
  have hlast := List.rdropWhile_last_not p m hne
  have hx : (List.rdropWhile p m).getLast hne = x := by
    have h2 := List.getLast?_eq_getLast (List.rdropWhile p m) hne
    rw [h2] at h
    exact (Option.some.injEq _ _).mp h
  rw [← hx]
  simpa using hlast

theorem chain'_of_suffix {R : Char → Char → Prop} {l m : List Char}
    (h : List.Chain' R l) (hs : m <:+ l) : List.Chain' R m := by
  obtain ⟨pre, hpre⟩ := hs
  rw [← hpre, List.chain'_append] at h
  exact h.2.1

theorem chain'_of_prefix {R : Char → Char → Prop} {l m : List Char}
    (h : List.Chain' R l) (hs : m <+: l) : List.Chain' R m := by
  obtain ⟨t, ht⟩ := hs
  rw [← ht, List.chain'_append] at h
  exact h.1

theorem stripBy_chain' {p : Char → Bool} {R : Char → Char → Prop} {l : List Char}
    (h : List.Chain' R l) : List.Chain' R (stripBy p l) := by
  have h1 : List.Chain' R (List.dropWhile p l) :=
    chain'_of_suffix h (List.dropWhile_suffix p)
  exact chain'_of_prefix h1 (List.rdropWhile_prefix p _)

theorem stripBy_eq_self {p : Char → Bool} {l : List Char}
    (hh : ∀ x, l.head? = some x → p x = false)
    (hl : ∀ x, l.getLast? = some x → p x = false) : stripBy p l = l := by
  unfold stripBy
  have h1 : List.dropWhile p l = l := by
    cases l with
    | nil => rfl
    | cons c rest =>
      have := hh c rfl
      simp [List.dropWhile, this]
  rw [h1, List.rdropWhile_eq_self_iff]
  intro hne hcon
  have := hl (l.getLast hne) (List.getLast?_eq_getLast _ hne)
  rw [this] at hcon
  exact Bool.false_ne_true hcon

theorem normChars_idem (l : List Char) : normChars (normChars l) = normChars l := by
  set F := List.filter (fun c => !isPySpace c) (l.map pyUpper) with hF
  set L := normChars l with hL
  have hLC : L = stripHy (collapseHy F) := rfl
  have hsubF : ∀ x ∈ L, x ∈ F := by
    intro x hx
    exact mem_collapseHy (stripBy_subset (hLC ▸ hx))
  have hmap : L.map pyUpper = L := by
    have : ∀ x ∈ L, pyUpper x = x := by
      intro x hx
      obtain ⟨y, _, hy⟩ := List.mem_map.mp (List.mem_filter.mp (hsubF x hx)).1
      rw [← hy]
      exact pyUpper_idem y
    calc L.map pyUpper = L.map id := List.map_congr_left this
    _ = L := List.map_id L
  have hfil : List.filter (fun c => !isPySpace c) L = L := by
    rw [List.filter_eq_self]
    intro x hx
    exact (List.mem_filter.mp (hsubF x hx)).2
  have hchain : HyFree L := hLC ▸ stripBy_chain' (chain_collapseHy F)
  have hcol : collapseHy L = L := collapseHy_eq_self hchain
  have hstrip : stripHy L = L :=
    stripBy_eq_self (fun x hx => stripBy_head (hLC ▸ hx)) (fun x hx => stripBy_last (hLC ▸ hx))
  show stripHy (collapseHy (List.filter (fun c => !isPySpace c) (L.map pyUpper))) = L
  rw [hmap, hfil, hcol, hstrip]

theorem pyLower_fiber {c x : Char} (h : pyLower c = x) :
    c = x ∨ (c, x) ∈ caseTable := by
  rw [pyLower] at h
  cases hf : caseTable.find? (fun p => p.1 == c) with
  | none =>
    rw [hf] at h
    exact Or.inl h
  | some pr =>
    rw [hf] at h
    have hmem := List.mem_of_find?_eq_some hf
    have hpred := List.find?_some hf
    have h1 : pr.1 = c := by simpa using hpred
    right
    have hcx : (c, x) = pr := by
      rw [← h1, ← h]
    rw [hcx]
    exact hmem

theorem lower_h_cases {c : Char} (h : pyLower c = 'h') : c = 'h' ∨ c = 'H' := by
  rcases pyLower_fiber h with h1 | h1
  · exact Or.inl h1
  · right
    have tbl : caseTable.all (fun q => !(q.2 == 'h') || q.1 == 'H') = true := by decide
    have := List.all_eq_true.mp tbl _ h1
    simpa using this

theorem lower_u_cases {c : Char} (h : pyLower c = 'u') : c = 'u' ∨ c = 'U' := by
  rcases pyLower_fiber h with h1 | h1
  · exact Or.inl h1
  · right
    have tbl : caseTable.all (fun q => !(q.2 == 'u') || q.1 == 'U') = true := by decide
    have := List.all_eq_true.mp tbl _ h1
    simpa using this

theorem lower_three {c : Char} (h : pyLower c = '3') : c = '3' := by
  rcases pyLower_fiber h with h1 | h1
  · exact h1
  · have tbl : caseTable.all (fun q => !(q.2 == '3')) = true := by decide
    have := List.all_eq_true.mp tbl _ h1
    simp at this

theorem lower_nine {c : Char} (h : pyLower c = '9') : c = '9' := by
  rcases pyLower_fiber h with h1 | h1
  · exact h1
  · have tbl : caseTable.all (fun q => !(q.2 == '9')) = true := by decide
    have := List.all_eq_true.mp tbl _ h1
    simp at this

theorem upper_of_lower_h {c : Char} (h : pyLower c = 'h') : pyUpper c = 'H' := by
  rcases lower_h_cases h with rfl | rfl <;> rfl

theorem upper_of_lower_u {c : Char} (h : pyLower c = 'u') : pyUpper c = 'U' := by
  rcases lower_u_cases h with rfl | rfl <;> rfl

theorem alnum_idch {c : Char} (h : isAlnumCi c = true) : isIdch c = true := by
  have hm : c ∈ alnumChars := List.elem_iff.mp h
  have tbl : alnumChars.all isIdch = true := by decide
  exact List.all_eq_true.mp tbl c hm

/-- `normChars` keeps an initial two-character non-hyphen, non-space
segment, upper-cased, at the front. -/
theorem normChars_cons2 {c0 c1 : Char} {rest : List Char} {C0 C1 : Char}
    (h0 : pyUpper c0 = C0) (h1 : pyUpper c1 = C1)
    (hs0 : isPySpace C0 = false) (hs1 : isPySpace C1 = false)
    (hh0 : isHy C0 = false) (hh1 : isHy C1 = false) :
    ∃ tail, normChars (c0 :: c1 :: rest) = C0 :: C1 :: tail := by
  rw [normChars]
  simp only [List.map_cons, h0, h1]
  rw [List.filter_cons, List.filter_cons]
  simp only [hs0, hs1, Bool.not_false, if_true]
  set R := List.filter (fun c => !isPySpace c) (rest.map pyUpper) with hR
  have hcol : ∃ T, collapseHy (C0 :: C1 :: R) = C0 :: C1 :: T := by
    rw [collapseHy, if_neg (by rw [hh0]; simp)]
    cases R with
    | nil => exact ⟨[], by rw [collapseHy]⟩
    | cons r R2 =>
      rw [collapseHy, if_neg (by rw [hh1]; simp)]
      exact ⟨collapseHy (r :: R2), rfl⟩
  obtain ⟨T, hT⟩ := hcol
  rw [hT, stripHy, stripBy]
  have hdw : List.dropWhile isHy (C0 :: C1 :: T) = C0 :: C1 :: T := by
    rw [List.dropWhile_cons, if_neg (by rw [hh0]; simp)]
  rw [hdw, List.rdropWhile]
  have hrev : (C0 :: C1 :: T).reverse = T.reverse ++ [C1, C0] := by
    simp
  rw [hrev, List.dropWhile_append]
  by_cases hemp : (List.dropWhile isHy T.reverse).isEmpty = true
  · rw [if_pos hemp, List.dropWhile_cons, if_neg (by rw [hh1]; simp)]
    exact ⟨[], rfl⟩
  · rw [if_neg hemp]
    refine ⟨(List.dropWhile isHy T.reverse).reverse, ?_⟩
    rw [List.reverse_append]
    rfl

/-- Decomposition of a two-or-longer slice of the text. -/
theorem slice_cons2 {t : List Char} {a b : Nat} (hb : b ≤ t.length)
    (h2 : a + 2 ≤ b) :
    ∃ x0 x1 rest, (t.drop a).take (b - a) = x0 :: x1 :: rest ∧
      t[a]? = some x0 ∧ t[a + 1]? = some x1 ∧
      (∀ y ∈ rest, ∃ k, a + 2 ≤ k ∧ k < b ∧ t[k]? = some y) := by
  have ha : a < t.length := by omega
  have ha1 : a + 1 < t.length := by omega
  have hd1 : t.drop a = t.get ⟨a, ha⟩ :: t.drop (a + 1) := List.drop_eq_getElem_cons ha
  have hd2 : t.drop (a + 1) = t.get ⟨a + 1, ha1⟩ :: t.drop (a + 2) :=
    List.drop_eq_getElem_cons ha1
  refine ⟨t.get ⟨a, ha⟩, t.get ⟨a + 1, ha1⟩, (t.drop (a + 2)).take (b - a - 2),
    ?_, ?_, ?_, ?_⟩
  · rw [hd1, show b - a = (b - a - 1) + 1 by omega, List.take_succ_cons, hd2,
      show b - a - 1 = (b - a - 2) + 1 by omega, List.take_succ_cons]
    have he : b - a - 2 + 1 + 1 - 2 = b - a - 2 := by omega
    rw [he]
  · exact List.getElem?_eq_getElem ha
  · exact List.getElem?_eq_getElem ha1
  · intro y hy
    obtain ⟨n, hn, hyn⟩ := List.getElem_of_mem hy
    have hlen : ((t.drop (a + 2)).take (b - a - 2)).length ≤ b - a - 2 := by
      rw [List.length_take]
      exact Nat.min_le_left _ _
    refine ⟨a + 2 + n, by omega, by omega, ?_⟩
    have hgt : ((t.drop (a + 2)).take (b - a - 2))[n]? = some y := by
      rw [List.getElem?_eq_getElem hn, hyn]
    rw [List.getElem?_take, if_pos (by omega)] at hgt
    rw [List.getElem?_drop] at hgt
    rw [show a + 2 + n = a + 2 + n from rfl]
    exact hgt

/-- Structure of a `coreHU` match: it spans at least two characters,
stays inside the text, and its first two characters are `H`/`h` and
`U`/`u`. -/
theorem coreHU_shape {t : List Char} {j e : Nat} {c : Option (Nat × Nat)}
    (h : (e, c) ∈ ends coreHU t j) :
    j + 2 ≤ e ∧ e ≤ t.length ∧
    (∃ ch0, t[j]? = some ch0 ∧ pyLower ch0 = 'h') ∧
    (∃ ch1, t[j + 1]? = some ch1 ∧ pyLower ch1 = 'u') := by
  have hc : coreHU = RE.seq (chI 'H') (RE.seq (chI 'U') (RE.seq
      (RE.look (RE.seq (RE.repG isIdch 0 none) (RE.cls isDigitC)))
      (RE.seq (RE.look (RE.seq (RE.repG isIdch 0 none) (RE.cls isHy)))
        (RE.seq (RE.repG isIdch 6 (some 40))
          (RE.seq (RE.cls isAlnumCi) RE.eps))))) := rfl
  rw [hc] at h
  obtain ⟨j1, c1, c2, h1, h2, -⟩ := mem_ends_seq h
  obtain ⟨-, hj1, ch0, ht0, hp0⟩ := mem_ends_cls h1
  subst hj1
  obtain ⟨j2, c3, c4, h3, h4, -⟩ := mem_ends_seq h2
  obtain ⟨-, hj2, ch1, ht1, hp1⟩ := mem_ends_cls h3
  subst hj2
  obtain ⟨j3, c5, c6, h5, h6, -⟩ := mem_ends_seq h4
  obtain ⟨hj3, -⟩ := mem_ends_look h5
  subst hj3
  obtain ⟨j4, c7, c8, h7, h8, -⟩ := mem_ends_seq h6
  obtain ⟨hj4, -⟩ := mem_ends_look h7
  subst hj4
  obtain ⟨k, c9, c10, h9, h10, -⟩ := mem_ends_seq h8
  obtain ⟨-, hk1, hk2⟩ := mem_ends_repG h9
  obtain ⟨m2, c11, c12, h11, h12, -⟩ := mem_ends_seq h10
  obtain ⟨-, hm2, ck, htk, hpk⟩ := mem_ends_cls h11
  subst hm2
  obtain ⟨he, -⟩ := mem_ends_eps h12
  subst he
  have hklen : k < t.length := by
    obtain ⟨hk, -⟩ := List.getElem?_eq_some.mp htk
    exact hk
  have hl0 : pyLower ch0 = 'h' := by
    have : (pyLower ch0 == pyLower 'H') = true := hp0
    simpa using this
  have hl1 : pyLower ch1 = 'u' := by
    have : (pyLower ch1 == pyLower 'U') = true := hp1
    simpa using this
  exact ⟨by omega, by omega, ⟨ch0, ht0, hl0⟩, ⟨ch1, ht1, hl1⟩⟩

/-- Structure of a `core39` match: it spans at least two characters,
stays inside the text, and starts with the digits `3`, `9`. -/
theorem core39_shape {t : List Char} {j e : Nat} {c : Option (Nat × Nat)}
    (h : (e, c) ∈ ends core39 t j) :
    j + 2 ≤ e ∧ e ≤ t.length ∧
    t[j]? = some '3' ∧ t[j + 1]? = some '9' := by
  have hc : core39 = RE.seq (chI '3') (RE.seq (chI '9') (RE.seq
      (RE.look (RE.seq (RE.repG isIdch 0 none) (RE.cls isDigitC)))
      (RE.seq (RE.repG isIdch 6 (some 40))
        (RE.seq (RE.cls isAlnumCi) RE.eps)))) := rfl
  rw [hc] at h
  obtain ⟨j1, c1, c2, h1, h2, -⟩ := mem_ends_seq h
  obtain ⟨-, hj1, ch0, ht0, hp0⟩ := mem_ends_cls h1
  subst hj1
  obtain ⟨j2, c3, c4, h3, h4, -⟩ := mem_ends_seq h2
  obtain ⟨-, hj2, ch1, ht1, hp1⟩ := mem_ends_cls h3
  subst hj2
  obtain ⟨j3, c5, c6, h5, h6, -⟩ := mem_ends_seq h4
  obtain ⟨hj3, -⟩ := mem_ends_look h5
  subst hj3
  obtain ⟨k, c9, c10, h9, h10, -⟩ := mem_ends_seq h6
  obtain ⟨-, hk1, hk2⟩ := mem_ends_repG h9
  obtain ⟨m2, c11, c12, h11, h12, -⟩ := mem_ends_seq h10
  obtain ⟨-, hm2, ck, htk, hpk⟩ := mem_ends_cls h11
  subst hm2
  obtain ⟨he, -⟩ := mem_ends_eps h12
  subst he
  have hklen : k < t.length := by
    obtain ⟨hk, -⟩ := List.getElem?_eq_some.mp htk
    exact hk
  have hl0 : ch0 = '3' := by
    have h3 : (pyLower ch0 == pyLower '3') = true := hp0
    exact lower_three (by simpa using h3)
  have hl1 : ch1 = '9' := by
    have h9 : (pyLower ch1 == pyLower '9') = true := hp1
    exact lower_nine (by simpa using h9)
  exact ⟨by omega, by omega, hl0 ▸ ht0, hl1 ▸ ht1⟩

/-- A slice whose first two characters lower-case to `h`, `u`
normalizes to an `HU`-prefixed value. -/
theorem norm_slice_HU {t : List Char} {a b : Nat}
    (h2 : a + 2 ≤ b) (hlen : b ≤ t.length)
    (hc0 : ∃ ch0, t[a]? = some ch0 ∧ pyLower ch0 = 'h')
    (hc1 : ∃ ch1, t[a + 1]? = some ch1 ∧ pyLower ch1 = 'u') :
    startsHU39 (normChars ((t.drop a).take (b - a))) = true := by
  obtain ⟨ch0, ht0, hl0⟩ := hc0
  obtain ⟨ch1, ht1, hl1⟩ := hc1
  obtain ⟨x0, x1, rest, hslice, hx0, hx1, -⟩ := slice_cons2 hlen h2
  have he0 : x0 = ch0 := by
    rw [hx0] at ht0
    exact (Option.some.injEq _ _).mp ht0
  have he1 : x1 = ch1 := by
    rw [hx1] at ht1
    exact (Option.some.injEq _ _).mp ht1
  rw [he0, he1] at hslice
  obtain ⟨tail, htail⟩ := @normChars_cons2 ch0 ch1 rest 'H' 'U'
    (upper_of_lower_h hl0) (upper_of_lower_u hl1)
    (by decide) (by decide) (by decide) (by decide)
  rw [hslice, htail, startsHU39]
  have hpre : List.isPrefixOf ['H', 'U'] ('H' :: 'U' :: tail) = true := by
    simp [List.isPrefixOf]
  rw [hpre, Bool.true_or]

/-- A slice starting with the digits `3`, `9` normalizes to a
`39`-prefixed value. -/
theorem norm_slice_39 {t : List Char} {a b : Nat}
    (h2 : a + 2 ≤ b) (hlen : b ≤ t.length)
    (hc0 : t[a]? = some '3') (hc1 : t[a + 1]? = some '9') :
    startsHU39 (normChars ((t.drop a).take (b - a))) = true := by
  obtain ⟨x0, x1, rest, hslice, hx0, hx1, -⟩ := slice_cons2 hlen h2
  have he0 : x0 = '3' := by
    rw [hx0] at hc0
    exact (Option.some.injEq _ _).mp hc0
  have he1 : x1 = '9' := by
    rw [hx1] at hc1
    exact (Option.some.injEq _ _).mp hc1
  rw [he0, he1] at hslice
  obtain ⟨tail, htail⟩ := @normChars_cons2 '3' '9' rest '3' '9'
    (show pyUpper '3' = '3' from rfl) (show pyUpper '9' = '9' from rfl)
    (by decide) (by decide) (by decide) (by decide)
  rw [hslice, htail, startsHU39]
  have hpre : List.isPrefixOf ['3', '9'] ('3' :: '9' :: tail) = true := by
    simp [List.isPrefixOf]
  rw [hpre, Bool.or_true]

/-- Any first match of pattern 1 normalizes to a valid prefix. -/
theorem searchCap_PAT1_starts {t m : List Char}
    (h : searchCap PAT1 t = some m) : startsHU39 (normChars m) = true := by
  obtain ⟨i, e, c, hmem, hcase⟩ := searchCap_mem h
  rw [show PAT1 = RE.seq label_re (RE.grp coreHU) from rfl] at hmem
  obtain ⟨j, c1, c2, h1, h2, hc⟩ := mem_ends_seq hmem
  have hc1 : c1 = none := noGrp_caps (by decide) h1
  obtain ⟨hc2, c3, hcore⟩ := mem_ends_grp h2
  rw [hc1, hc2, Option.none_or] at hc
  rcases hcase with ⟨hcnone, -⟩ | ⟨a, b, hcs, hm⟩
  · rw [hcnone] at hc
    exact absurd hc (by simp)
  · rw [hcs] at hc
    obtain ⟨rfl, rfl⟩ : a = j ∧ b = e := by simpa using hc
    obtain ⟨hj2e, helen, hch0, hch1⟩ := coreHU_shape hcore
    rw [hm]
    exact norm_slice_HU hj2e helen hch0 hch1

/-- Any first match of pattern 2 normalizes to a valid prefix. -/
theorem searchCap_PAT2_starts {t m : List Char}
    (h : searchCap PAT2 t = some m) : startsHU39 (normChars m) = true := by
  obtain ⟨i, e, c, hmem, hcase⟩ := searchCap_mem h
  rw [show PAT2 = RE.seq label_re (RE.grp core39) from rfl] at hmem
  obtain ⟨j, c1, c2, h1, h2, hc⟩ := mem_ends_seq hmem
  have hc1 : c1 = none := noGrp_caps (by decide) h1
  obtain ⟨hc2, c3, hcore⟩ := mem_ends_grp h2
  rw [hc1, hc2, Option.none_or] at hc
  rcases hcase with ⟨hcnone, -⟩ | ⟨a, b, hcs, hm⟩
  · rw [hcnone] at hc
    exact absurd hc (by simp)
  · rw [hcs] at hc
    obtain ⟨rfl, rfl⟩ : a = j ∧ b = e := by simpa using hc
    obtain ⟨hj2e, helen, hch0, hch1⟩ := core39_shape hcore
    rw [hm]
    exact norm_slice_39 hj2e helen hch0 hch1

/-- Any first match of pattern 3 normalizes to a valid prefix. -/
theorem searchCap_PAT3_starts {t m : List Char}
    (h : searchCap PAT3 t = some m) : startsHU39 (normChars m) = true := by
  obtain ⟨i, e, c, hmem, hcase⟩ := searchCap_mem h
  rw [show PAT3 = RE.grp (RE.seq RE.wb (RE.seq coreHU (RE.seq RE.wb RE.eps)))
    from rfl] at hmem
  obtain ⟨hcg, c3, hin⟩ := mem_ends_grp hmem
  obtain ⟨j1, c4, c5, h1, h2, -⟩ := mem_ends_seq hin
  obtain ⟨hj1, -⟩ := mem_ends_wb h1
  rw [hj1] at h2
  obtain ⟨k, c6, c7, h3, h4, -⟩ := mem_ends_seq h2
  obtain ⟨j2, c8, c9, h5, h6, -⟩ := mem_ends_seq h4
  obtain ⟨hj2, -⟩ := mem_ends_wb h5
  rw [hj2] at h6
  obtain ⟨hek, -⟩ := mem_ends_eps h6
  obtain ⟨hj2e, helen, hch0, hch1⟩ := coreHU_shape h3
  rcases hcase with ⟨hcnone, -⟩ | ⟨a, b, hcs, hm⟩
  · rw [hcnone] at hcg
    exact absurd hcg (by simp)
  · rw [hcs] at hcg
    obtain ⟨rfl, rfl⟩ : a = i ∧ b = e := by simpa using hcg
    rw [hm, hek]
    exact norm_slice_HU hj2e helen hch0 hch1

/-- Any first match of pattern 4 normalizes to a valid prefix. -/
theorem searchCap_PAT4_starts {t m : List Char}
    (h : searchCap PAT4 t = some m) : startsHU39 (normChars m) = true := by
  obtain ⟨i, e, c, hmem, hcase⟩ := searchCap_mem h
  rw [show PAT4 = RE.grp (RE.seq RE.wb (RE.seq core39 (RE.seq RE.wb RE.eps)))
    from rfl] at hmem
  obtain ⟨hcg, c3, hin⟩ := mem_ends_grp hmem
  obtain ⟨j1, c4, c5, h1, h2, -⟩ := mem_ends_seq hin
  obtain ⟨hj1, -⟩ := mem_ends_wb h1
  rw [hj1] at h2
  obtain ⟨k, c6, c7, h3, h4, -⟩ := mem_ends_seq h2
  obtain ⟨j2, c8, c9, h5, h6, -⟩ := mem_ends_seq h4
  obtain ⟨hj2, -⟩ := mem_ends_wb h5
  rw [hj2] at h6
  obtain ⟨hek, -⟩ := mem_ends_eps h6
  obtain ⟨hj2e, helen, hch0, hch1⟩ := core39_shape h3
  rcases hcase with ⟨hcnone, -⟩ | ⟨a, b, hcs, hm⟩
  · rw [hcnone] at hcg
    exact absurd hcg (by simp)
  · rw [hcs] at hcg
    obtain ⟨rfl, rfl⟩ : a = i ∧ b = e := by simpa using hcg
    rw [hm, hek]
    exact norm_slice_39 hj2e helen hch0 hch1

/-- Every value returned by the pattern loop passed the
`startswith("HU") or startswith("39")` check. -/
theorem findLoop_starts :
    ∀ {ps : List RE} {t : List Char} {v : String},
      findLoop ps t = some v → startsHU39 v.data = true
  | [], _, _, h => by simp [findLoop] at h
  | p :: ps, t, v, h => by
    cases hs : searchCap p t with
    | none =>
      rw [findLoop, hs] at h
      exact findLoop_starts h
    | some m =>
      rw [findLoop, hs] at h
      by_cases hc : startsHU39 (normChars m) = true
      · simp only [hc, if_true] at h
        cases h
        exact hc
      · simp only [hc, if_false, Bool.false_eq_true] at h
        exact findLoop_starts h

/-- Every value returned by `_find_pod_in_text` passed the prefix
check. -/
theorem find_pod_starts {t : String} {v : String}
    (h : find_pod_in_text t = some v) : startsHU39 v.data = true := by
  unfold find_pod_in_text at h
  split at h
  · exact absurd h (by simp)
  · exact findLoop_starts h

/-- A string passing the prefix check is non-empty (truthy). -/
theorem startsHU39_ne_empty {v : String} (h : startsHU39 v.data = true) :
    v ≠ "" := by
  intro he
  rw [he] at h
  exact absurd h (by decide)

/-- Whatever `_find_pod_in_text` finds on page 2 of a two-or-more-page
document is the locator's result. -/
theorem extract_pod_page2_wins (pages : List String) (v : String)
    (hlen : 2 ≤ pages.length)
    (h : find_pod_in_text (pages.getD 1 "") = some v) :
    extract_pod_from_pdf pages = some v := by
  have hne : v ≠ "" := startsHU39_ne_empty (find_pod_starts h)
  unfold extract_pod_from_pdf
  rw [if_pos hlen, h]
  simp [hne]

/-- C1 (amended): the initial page-2 search of `extract_pod_from_pdf`
applies all four patterns — whenever `_find_pod_in_text` finds a value
on page 2 of a document with at least two pages (including via the
label-free anywhere patterns), that value is the result, and the
all-pages scan runs only when all four patterns fail on page 2. -/
theorem C1_page2_phase_uses_all_patterns (pages : List String) (v : String)
    (hlen : 2 ≤ pages.length)
    (h : find_pod_in_text (pages.getD 1 "") = some v) :
    extract_pod_from_pdf pages = some v :=
  extract_pod_page2_wins pages v hlen h

/-- Witness for C1 (amended) at a concrete two-page document whose
page 2 has only a label-free POD token. -/
theorem C1_page2_phase_uses_all_patterns_witness :
    2 ≤ (["first page", "HU-2222222B"] : List String).length ∧
    find_pod_in_text ((["first page", "HU-2222222B"] : List String).getD 1 "") =
      some "HU-2222222B" ∧
    extract_pod_from_pdf ["first page", "HU-2222222B"] = some "HU-2222222B" :=
  ⟨by decide, by decide,
   C1_page2_phase_uses_all_patterns ["first page", "HU-2222222B"] "HU-2222222B"
     (by decide) (by decide)⟩

/-- C1 counterexample: the claim says a page-2 text containing only a
label-free POD token produces nothing in the page-2 phase, so the
locator would fall back to the all-pages scan and return the page-1
after-label value; the code instead runs all four patterns on page 2
and returns the page-2 anywhere-token.  The spec-modelled locator and
the code disagree on this input. -/
theorem C1_counterexample :
    extract_pod_from_pdf ["Meropont azonosito: HU-111-1111", "HU-2222222B"] =
      some "HU-2222222B" ∧
    extract_pod_spec_page2LabelOnly
        ["Meropont azonosito: HU-111-1111", "HU-2222222B"] =
      some "HU-111-1111" ∧
    ("HU-2222222B" : String) ≠ "HU-111-1111" :=
  ⟨by decide, by decide, by decide⟩

/-- C9: `_find_pod_in_text` equals the normalization of the first raw
capture of the first matching pattern — the prefix-validity check
never rejects a found match, so the locator never falls through to a
later pattern because of a malformed capture — and every such first
raw capture normalizes to an `HU`- or `39`-prefixed value. -/
theorem C9_malformed_discard_unreachable (t : String) :
    find_pod_in_text t =
      (firstRawCapture PATTERNS t.data).map (fun m => String.mk (normChars m)) ∧
    ∀ m, firstRawCapture PATTERNS t.data = some m →
      startsHU39 (normChars m) = true := by
  constructor
  · by_cases ht : t = ""
    · subst ht
      decide
    · rw [find_pod_in_text, if_neg ht]
      rw [show PATTERNS = [PAT1, PAT2, PAT3, PAT4] from rfl]
      cases h1 : searchCap PAT1 t.data with
      | some m =>
        simp only [findLoop, firstRawCapture, h1, searchCap_PAT1_starts h1,
          if_true, Option.map_some']
      | none =>
        cases h2 : searchCap PAT2 t.data with
        | some m =>
          simp only [findLoop, firstRawCapture, h1, h2, searchCap_PAT2_starts h2,
            if_true, Option.map_some']
        | none =>
          cases h3 : searchCap PAT3 t.data with
          | some m =>
            simp only [findLoop, firstRawCapture, h1, h2, h3,
              searchCap_PAT3_starts h3, if_true, Option.map_some']
          | none =>
            cases h4 : searchCap PAT4 t.data with
            | some m =>
              simp only [findLoop, firstRawCapture, h1, h2, h3, h4,
                searchCap_PAT4_starts h4, if_true, Option.map_some']
            | none =>
              simp only [findLoop, firstRawCapture, h1, h2, h3, h4,
                Option.map_none']
  · intro m hm
    rw [show PATTERNS = [PAT1, PAT2, PAT3, PAT4] from rfl] at hm
    cases h1 : searchCap PAT1 t.data with
    | some m1 =>
      simp only [firstRawCapture, h1, Option.some.injEq] at hm
      rw [← hm]
      exact searchCap_PAT1_starts h1
    | none =>
      simp only [firstRawCapture, h1] at hm
      cases h2 : searchCap PAT2 t.data with
      | some m2 =>
        simp only [firstRawCapture, h2, Option.some.injEq] at hm
        rw [← hm]
        exact searchCap_PAT2_starts h2
      | none =>
        simp only [firstRawCapture, h2] at hm
        cases h3 : searchCap PAT3 t.data with
        | some m3 =>
          simp only [firstRawCapture, h3, Option.some.injEq] at hm
          rw [← hm]
          exact searchCap_PAT3_starts h3
        | none =>
          simp only [firstRawCapture, h3] at hm
          cases h4 : searchCap PAT4 t.data with
          | some m4 =>
            simp only [firstRawCapture, h4, Option.some.injEq] at hm
            rw [← hm]
            exact searchCap_PAT4_starts h4
          | none =>
            simp only [firstRawCapture, h4] at hm
            exact Option.noConfusion hm

/-- Witness for C9 at a concrete page text. -/
theorem C9_malformed_discard_unreachable_witness :
    firstRawCapture PATTERNS ("HU-2222222B" : String).data =
      some ("HU-2222222B" : String).data ∧
    startsHU39 (normChars ("HU-2222222B" : String).data) = true :=
  ⟨by decide,
   (C9_malformed_discard_unreachable "HU-2222222B").2
     ("HU-2222222B" : String).data (by decide)⟩

/-- A first match of the after-label HU pattern on a page text makes
`_find_pod_in_text` return its normalization. -/
theorem find_pod_of_PAT1 {p2 : String} {v : List Char}
    (h : searchCap PAT1 p2.data = some v) :
    find_pod_in_text p2 = some (String.mk (normChars v)) := by
  have hne : p2 ≠ "" := by
    intro h0
    rw [h0] at h
    have hnone : searchCap PAT1 ("" : String).data = none := by decide
    rw [hnone] at h
    exact Option.noConfusion h
  rw [find_pod_in_text, if_neg hne]
  rw [show PATTERNS = [PAT1, PAT2, PAT3, PAT4] from rfl]
  simp only [findLoop, h, searchCap_PAT1_starts h, if_true]

/-- C4: for a two-page document whose page-2 text contains an
after-label HU match while page-1 contains only an anywhere-39 match,
the locator returns the normalized HU value from page 2 — the page-2,
higher-priority pattern wins regardless of page order. -/
theorem C4_page2_label_priority (p1 p2 : String) (v : List Char)
    (h2 : searchCap PAT1 p2.data = some v)
    (_hn1 : searchCap PAT1 p1.data = none)
    (_hn2 : searchCap PAT2 p1.data = none)
    (_hn3 : searchCap PAT3 p1.data = none)
    (_hn4 : searchCap PAT4 p1.data ≠ none) :
    extract_pod_from_pdf [p1, p2] = some (String.mk (normChars v)) := by
  have hfind := find_pod_of_PAT1 h2
  exact extract_pod_page2_wins [p1, p2] _ (by simp) hfind

/-- Witness for C4 at concrete page texts. -/
theorem C4_page2_label_priority_witness :
    searchCap PAT1 ("Meropont azonosito: HU-123-4567" : String).data =
      some ("HU-123-4567" : String).data ∧
    searchCap PAT1 (("3912345678" : String)).data = none ∧
    searchCap PAT2 (("3912345678" : String)).data = none ∧
    searchCap PAT3 (("3912345678" : String)).data = none ∧
    searchCap PAT4 (("3912345678" : String)).data ≠ none ∧
    extract_pod_from_pdf ["3912345678", "Meropont azonosito: HU-123-4567"] =
      some (String.mk (normChars ("HU-123-4567" : String).data)) :=
  ⟨by decide, by decide, by decide, by decide, by decide,
   C4_page2_label_priority "3912345678" "Meropont azonosito: HU-123-4567"
     ("HU-123-4567" : String).data (by decide) (by decide) (by decide)
     (by decide) (by decide)⟩

/-- C5: field extraction on the two reference email bodies returns the
specified company names and invoice numbers. -/
theorem C5_field_extraction_examples :
    extract_company "Tisztelt Jégszilánk Kft!\nEzúton küldjük a 562003117859 számú elektronikus számláját..." = some "Jégszilánk Kft" ∧
    extract_invoice "Tisztelt Jégszilánk Kft!\nEzúton küldjük a 562003117859 számú elektronikus számláját..." = some "562003117859" ∧
    extract_company "Tisztelt Valami Zrt   !\nKüldjük a 123456789 számú elektronikus számláját" = some "Valami Zrt" ∧
    extract_invoice "Tisztelt Valami Zrt   !\nKüldjük a 123456789 számú elektronikus számláját" = some "123456789" :=
  ⟨by decide, by decide, by decide, by decide⟩

/-- C10: `extract_company` can return a present but empty company
name: on the body consisting of the greeting word, two spaces and an
exclamation mark, the lazy capture matches a single space, which is
then stripped to the empty string. -/
theorem C10_extract_company_empty_capture :
    extract_company "Tisztelt  !" = some "" := by decide

/-- C2 counterexample: on the empty (but present) POD string the code
returns no destination (Python's falsy test), while the claim's
"every other prefix falls back to ELECTRICITY" reading demands the
electricity destination. -/
theorem C2_counterexample :
    route_folder (some "") = none ∧ route_folder (some "") ≠ some OUT_ELECTRICITY :=
  ⟨rfl, by decide⟩

/-- C2 (amended): routing returns no destination when the POD is
absent or empty; otherwise an uppercased `HU` prefix yields the
electricity destination, `39` yields gas, and every other prefix falls
back to electricity. -/
theorem C2_route_folder_amended :
    route_folder none = none ∧
    route_folder (some "") = none ∧
    ∀ s : String, s ≠ "" →
      (List.isPrefixOf ['H', 'U'] (s.data.map pyUpper) = true →
        route_folder (some s) = some OUT_ELECTRICITY) ∧
      (List.isPrefixOf ['3', '9'] (s.data.map pyUpper) = true →
        route_folder (some s) = some OUT_GAS) ∧
      (List.isPrefixOf ['H', 'U'] (s.data.map pyUpper) = false →
        List.isPrefixOf ['3', '9'] (s.data.map pyUpper) = false →
        route_folder (some s) = some OUT_ELECTRICITY) := by
  refine ⟨rfl, rfl, fun s hs => ⟨fun h1 => ?_, fun h1 => ?_, fun h1 h2 => ?_⟩⟩
  · simp [route_folder, hs, h1]
  · have hHU : List.isPrefixOf ['H', 'U'] (s.data.map pyUpper) = false := by
      obtain ⟨t, ht⟩ := List.isPrefixOf_iff_prefix.mp h1
      rw [← ht]
      have h39 : ('H' == '3') = false := rfl
      simp [List.isPrefixOf, h39]
    simp [route_folder, hs, h1, hHU]
  · simp [route_folder, hs, h1, h2]

/-- Witness for C2 (amended) at the unknown-prefix example of the
spec. -/
theorem C2_route_folder_amended_witness :
    ("XX00000000" : String) ≠ "" ∧
    List.isPrefixOf ['H', 'U'] (("XX00000000" : String).data.map pyUpper) = false ∧
    List.isPrefixOf ['3', '9'] (("XX00000000" : String).data.map pyUpper) = false ∧
    route_folder (some "XX00000000") = some OUT_ELECTRICITY :=
  ⟨by decide, by decide, by decide,
   (C2_route_folder_amended.2.2 "XX00000000" (by decide)).2.2 (by decide) (by decide)⟩

/-- Python's `in` agrees with list-infix. -/
theorem isSubstrOf_iff {needle : List Char} :
    ∀ {hay : List Char}, isSubstrOf needle hay = true ↔ needle <:+: hay
  | [] => by
    rw [isSubstrOf]
    simp [List.isEmpty_iff]
  | h :: t => by
    rw [isSubstrOf, Bool.or_eq_true, List.isPrefixOf_iff_prefix,
      @isSubstrOf_iff needle t, List.infix_cons_iff]

/-- C6: exception classification is true exactly when some configured
keyword occurs as a case-insensitive substring of the company name; an
absent company name is never an exception; and keyword `"Acme"`
matches company `"The ACME Corporation"`. -/
theorem C6_exception_classification :
    (∀ keywords : List String, is_exception_company keywords none = false) ∧
    (∀ name : String,
      is_exception_company EXCEPT_KEYWORDS (some name) = true ↔
        ∃ kw ∈ EXCEPT_KEYWORDS, (kw.data.map pyLower) <:+: (name.data.map pyLower)) ∧
    is_exception_company ["Acme"] (some "The ACME Corporation") = true := by
  refine ⟨fun _ => rfl, fun name => ?_, by decide⟩
  by_cases hn : name = ""
  · subst hn
    rw [is_exception_company]
    simp only [if_pos rfl]
    constructor
    · intro h
      exact absurd h (by decide)
    · rintro ⟨kw, hkw, hinf⟩
      have hlen := hinf.length_le
      simp only [show ("" : String).data = [] from rfl, List.map_nil,
        List.length_nil, List.length_map, Nat.le_zero, List.length_eq_zero] at hlen
      have hkw0 : kw = "" := by
        cases kw with
        | mk d => exact congrArg String.mk hlen
      rw [hkw0] at hkw
      exact absurd hkw (by decide)
  · rw [is_exception_company]
    simp only [if_neg hn, List.any_eq_true]
    constructor
    · rintro ⟨kw, hkw, hsub⟩
      exact ⟨kw, hkw, isSubstrOf_iff.mp hsub⟩
    · rintro ⟨kw, hkw, hinf⟩
      exact ⟨kw, hkw, isSubstrOf_iff.mpr hinf⟩

theorem mem_subReserved :
    ∀ {l : List Char} {x : Char}, x ∈ subReserved l → isReserved x = false
  | [], x, h => by simp [subReserved] at h
  | [c], x, h => by
    rw [subReserved] at h
    split at h
    · rw [List.mem_singleton] at h
      subst h
      rfl
    · next hc =>
      rw [List.mem_singleton] at h
      subst h
      simpa using hc
  | c :: d :: rest, x, h => by
    rw [subReserved] at h
    split at h
    · split at h
      · exact mem_subReserved h
      · rcases List.mem_cons.mp h with rfl | h2
        · rfl
        · exact mem_subReserved h2
    · next hc =>
      rcases List.mem_cons.mp h with rfl | h2
      · simpa using hc
      · exact mem_subReserved h2

theorem mem_collapseWs :
    ∀ {l : List Char} {x : Char}, x ∈ collapseWs l → x = ' ' ∨ x ∈ l
  | [], x, h => by simp [collapseWs] at h
  | [c], x, h => by
    rw [collapseWs] at h
    split at h
    · exact Or.inl (List.mem_singleton.mp h)
    · exact Or.inr h
  | c :: d :: rest, x, h => by
    rw [collapseWs] at h
    split at h
    · split at h
      · rcases mem_collapseWs h with h2 | h2
        · exact Or.inl h2
        · exact Or.inr (List.mem_cons_of_mem _ h2)
      · rcases List.mem_cons.mp h with rfl | h2
        · exact Or.inl rfl
        · rcases mem_collapseWs h2 with h3 | h3
          · exact Or.inl h3
          · exact Or.inr (List.mem_cons_of_mem _ h3)
    · rcases List.mem_cons.mp h with rfl | h2
      · exact Or.inr (List.mem_cons_self _ _)
      · rcases mem_collapseWs h2 with h3 | h3
        · exact Or.inl h3
        · exact Or.inr (List.mem_cons_of_mem _ h3)

theorem spaces_collapseWs :
    ∀ {l : List Char} {x : Char}, x ∈ collapseWs l → isPySpace x = true → x = ' '
  | [], x, h, _ => by simp [collapseWs] at h
  | [c], x, h, hsp => by
    rw [collapseWs] at h
    split at h
    · exact List.mem_singleton.mp h
    · next hc =>
      rw [List.mem_singleton] at h
      subst h
      exact absurd hsp (by simpa using hc)
  | c :: d :: rest, x, h, hsp => by
    rw [collapseWs] at h
    split at h
    · split at h
      · exact spaces_collapseWs h hsp
      · rcases List.mem_cons.mp h with rfl | h2
        · rfl
        · exact spaces_collapseWs h2 hsp
    · next hc =>
      rcases List.mem_cons.mp h with rfl | h2
      · exact absurd hsp (by simpa using hc)
      · exact spaces_collapseWs h2 hsp

theorem head?_collapseWs : ∀ (d : Char) (rest : List Char),
    (collapseWs (d :: rest)).head? = some (if isPySpace d = true then ' ' else d)
  | d, [] => by
    rw [collapseWs]
    split <;> rfl
  | d, e :: r => by
    rw [collapseWs]
    split
    · split
      · next he => rw [head?_collapseWs e r, if_pos he]
      · rfl
    · rfl

theorem chain_collapseWs : ∀ l : List Char, WsFree (collapseWs l)
  | [] => by simp [collapseWs, WsFree]
  | [c] => by
    rw [collapseWs]
    split <;> simp [WsFree]
  | c :: d :: rest => by
    rw [collapseWs]
    split
    · split
      · exact chain_collapseWs (d :: rest)
      · next hd =>
        rw [WsFree, List.chain'_cons']
        refine ⟨?_, chain_collapseWs (d :: rest)⟩
        intro y hy
        rw [head?_collapseWs d rest, if_neg hd] at hy
        cases hy
        intro hpair
        exact hd hpair.2
    · next hc =>
      rw [WsFree, List.chain'_cons']
      refine ⟨?_, chain_collapseWs (d :: rest)⟩
      intro y hy
      intro hpair
      exact hc hpair.1

/-- C7: for every company string, `safe_filename` leaves no reserved
character, every whitespace character of the result is a single plain
space with no two adjacent, the result is trimmed at both ends, and
the reference input sanitizes to exactly the specified value. -/
theorem C7_safe_filename_sanitization :
    (∀ s : String,
      (∀ x ∈ (safe_filename s).data, isReserved x = false) ∧
      (∀ x ∈ (safe_filename s).data, isPySpace x = true → x = ' ') ∧
      WsFree (safe_filename s).data ∧
      (∀ x, (safe_filename s).data.head? = some x → isPySpace x = false) ∧
      (∀ x, (safe_filename s).data.getLast? = some x → isPySpace x = false)) ∧
    safe_filename "Company/Name: \"Invoice\"" = "Company Name Invoice" := by
  refine ⟨fun s => ?_, by decide⟩
  have hdata : (safe_filename s).data = pyStrip (collapseWs (subReserved s.data)) := rfl
  refine ⟨?_, ?_, ?_, ?_, ?_⟩
  · intro x hx
    rw [hdata] at hx
    rcases mem_collapseWs (stripBy_subset hx) with rfl | hx3
    · rfl
    · exact mem_subReserved hx3
  · intro x hx hsp
    rw [hdata] at hx
    exact spaces_collapseWs (stripBy_subset hx) hsp
  · rw [show (safe_filename s).data = pyStrip (collapseWs (subReserved s.data)) from rfl]
    exact stripBy_chain' (chain_collapseWs _)
  · intro x hx
    rw [hdata] at hx
    exact stripBy_head hx
  · intro x hx
    rw [hdata] at hx
    exact stripBy_last hx

/-- Witness for C7 at a concrete company string and character. -/
theorem C7_safe_filename_sanitization_witness :
    'a' ∈ (safe_filename "a/b").data ∧ isReserved 'a' = false :=
  ⟨by decide, (C7_safe_filename_sanitization.1 "a/b").1 'a' (by decide)⟩

theorem reprToNat_natReprAux :
    ∀ (fuel n : Nat), n < fuel → reprToNat (natReprAux fuel n) = n
  | 0, n, h => absurd h (Nat.not_lt_zero n)
  | fuel + 1, n, h => by
    rw [natReprAux]
    by_cases h10 : n < 10
    · rw [if_pos h10]
      simp only [reprToNat, List.foldl_cons, List.foldl_nil]
      interval_cases n <;> rfl
    · rw [if_neg h10]
      have hlt : n / 10 < fuel := by omega
      have ih := reprToNat_natReprAux fuel (n / 10) hlt
      rw [reprToNat] at ih ⊢
      rw [List.foldl_append]
      simp only [List.foldl_cons, List.foldl_nil]
      rw [ih]
      have hmod : (decDigit (n % 10)).toNat - 48 = n % 10 := by
        have h2 : n % 10 < 10 := Nat.mod_lt _ (by norm_num)
        set k := n % 10
        interval_cases k <;> rfl
      rw [hmod]
      omega

theorem natRepr_inj {a b : Nat} (h : natRepr a = natRepr b) : a = b := by
  have ha := reprToNat_natReprAux (a + 1) a (Nat.lt_succ_self a)
  have hb := reprToNat_natReprAux (b + 1) b (Nat.lt_succ_self b)
  simp only [natRepr] at h
  calc a = reprToNat (natReprAux (a + 1) a) := ha.symm
  _ = reprToNat (natReprAux (b + 1) b) := by rw [h]
  _ = b := hb

theorem natRepr_ne_nil (n : Nat) : natRepr n ≠ [] := by
  rw [natRepr, natReprAux]
  by_cases h : n < 10
  · rw [if_pos h]
    simp
  · rw [if_neg h]
    simp

theorem splitext_concat (p : String) : (splitext p).1 ++ (splitext p).2 = p := by
  apply String.ext
  rw [String.data_append, splitext]
  split
  · show p.data ++ ("" : String).data = p.data
    simp [show ("" : String).data = [] from rfl]
  · next hlen =>
    set q : Char → Bool := fun c => !(c == '.') with hq
    set rev := p.data.reverse with hrev
    set extRev := rev.takeWhile q with hext
    show (rev.drop (extRev.length + 1)).reverse ++ ('.' :: extRev.reverse) = p.data
    have hsplit : extRev ++ rev.dropWhile q = rev := List.takeWhile_append_dropWhile q rev
    have hdne : rev.dropWhile q ≠ [] := by
      intro h0
      rw [h0, List.append_nil] at hsplit
      exact hlen (by rw [hsplit])
    obtain ⟨c, rest, hcr⟩ := List.exists_cons_of_ne_nil hdne
    have hc : c = '.' := by
      have hh : (rev.dropWhile q).head? = some c := by rw [hcr]; rfl
      have := head?_dropWhile hh
      simpa [hq] using this
    have hdrop : rev.drop (extRev.length + 1) = rest := by
      have hr2 : rev = (extRev ++ [c]) ++ rest := by
        rw [← hsplit, hcr]
        simp
      rw [hr2, show extRev.length + 1 = (extRev ++ [c]).length by simp]
      exact List.drop_left _ _
    rw [hdrop]
    have hp : p.data = rev.reverse := by rw [hrev, List.reverse_reverse]
    rw [hp, ← hsplit, hcr, hc, List.reverse_append, List.reverse_cons]
    simp

theorem candidate_succ_len {op : String} {b : Nat} :
    (candidate op (b + 1)).data.length =
      (splitext op).1.data.length + 3 + (natRepr (b + 1)).length +
        (splitext op).2.data.length := by
  show ((splitext op).1 ++ " (" ++ String.mk (natRepr (b + 1)) ++ ")" ++
      (splitext op).2).data.length = _
  simp only [String.data_append, List.length_append, List.length_cons, List.length_nil]
  have h3 : (String.mk (natRepr (b + 1))).data.length = (natRepr (b + 1)).length := rfl
  omega

theorem candidate_zero_ne (op : String) (b : Nat) :
    candidate op 0 ≠ candidate op (b + 1) := by
  intro h
  have hlen := congrArg (fun s : String => s.data.length) h
  simp only at hlen
  rw [candidate_succ_len] at hlen
  have hcat := congrArg (fun s : String => s.data.length) (splitext_concat op)
  simp only [String.data_append, List.length_append] at hcat
  have hr : (natRepr (b + 1)).length ≠ 0 := by
    intro h0
    exact natRepr_ne_nil (b + 1) (List.length_eq_zero.mp h0)
  have hz : (candidate op 0).data.length = op.data.length := rfl
  omega

theorem candidate_inj (op : String) : Function.Injective (candidate op) := by
  intro a b hab
  match a, b with
  | 0, 0 => rfl
  | 0, b + 1 => exact absurd hab (candidate_zero_ne op b)
  | a + 1, 0 => exact absurd hab.symm (candidate_zero_ne op a)
  | a + 1, b + 1 =>
    have hd := congrArg String.data hab
    simp only [candidate, if_neg (Nat.succ_ne_zero a), if_neg (Nat.succ_ne_zero b),
      String.data_append, List.append_assoc] at hd
    have c1 := List.append_cancel_left hd
    have c2 := List.append_cancel_left c1
    have c3 : natRepr (a + 1) ++ ((")" : String).data ++ (splitext op).2.data) =
        natRepr (b + 1) ++ ((")" : String).data ++ (splitext op).2.data) := by
      have hm : ∀ n : Nat, (String.mk (natRepr n)).data = natRepr n := fun _ => rfl
      rw [← hm (a + 1), ← hm (b + 1)] at c2 ⊢
      simpa using c2
    have := List.append_cancel_right c3
    rw [natRepr_inj this]

theorem exists_free_candidate (existing : List String) (op : String) :
    ∃ n, n ≤ existing.length ∧ candidate op n ∉ existing := by
  by_contra hc
  push_neg at hc
  have hnd : ((List.range (existing.length + 1)).map (candidate op)).Nodup :=
    List.Nodup.map (candidate_inj op) (List.nodup_range _)
  have hsub : ((List.range (existing.length + 1)).map (candidate op)) ⊆ existing := by
    intro x hx
    obtain ⟨n, hn, rfl⟩ := List.mem_map.mp hx
    exact hc n (Nat.lt_succ_iff.mp (List.mem_range.mp hn))
  have hle := (List.subperm_of_subset hnd hsub).length_le
  simp only [List.length_map, List.length_range] at hle
  omega

theorem find_free_loop_exact (existing : List String) (op : String) :
    ∀ (fuel n m : Nat), n ≤ m → m ≤ n + fuel →
      candidate op m ∉ existing →
      (∀ k, n ≤ k → k < m → candidate op k ∈ existing) →
      find_free_loop existing op fuel n = candidate op m
  | 0, n, m, h1, h2, _, _ => by
    have hm : m = n := by omega
    rw [hm]
    rfl
  | fuel + 1, n, m, h1, h2, h3, h4 => by
    rw [find_free_loop]
    by_cases hmem : candidate op n ∈ existing
    · rw [if_pos hmem]
      have hne : n ≠ m := by
        intro h0
        rw [h0] at hmem
        exact h3 hmem
      exact find_free_loop_exact existing op fuel (n + 1) m (by omega) (by omega) h3
        (fun k hk1 hk2 => h4 k (by omega) hk2)
    · rw [if_neg hmem]
      have hm : m = n := by
        by_contra h0
        exact hmem (h4 n (le_refl n) (by omega))
      rw [hm]

theorem final_path_least (existing : List String) (op : String) :
    ∃ m, final_path existing op = candidate op m ∧ candidate op m ∉ existing ∧
      ∀ k, k < m → candidate op k ∈ existing := by
  obtain ⟨n0, hn0, hfree⟩ := exists_free_candidate existing op
  have hex : ∃ n, candidate op n ∉ existing := ⟨n0, hfree⟩
  refine ⟨Nat.find hex, ?_, Nat.find_spec hex, fun k hk => ?_⟩
  · refine find_free_loop_exact existing op (existing.length + 1) 0 (Nat.find hex)
      (Nat.zero_le _) ?_ (Nat.find_spec hex) ?_
    · have : Nat.find hex ≤ n0 := Nat.find_min' hex hfree
      omega
    · intro k hk0 hkm
      have hnot := Nat.find_min hex hkm
      by_contra hncon
      exact hnot hncon
  · have hnot := Nat.find_min hex hk
    by_contra hncon
    exact hnot hncon

/-- C8: the collision loop returns a path outside the existing set;
it returns the unsuffixed candidate when that one is free, and
otherwise the candidate with the smallest disambiguator `n ≥ 1`
(every smaller `n ≥ 1` collides); `build_final_path` composes the
sanitized base name with this resolution, and on the concrete examples
the first collision yields the " (1)"-suffixed path and a double
collision yields " (2)". -/
theorem C8_collision_policy :
    (∀ (existing : List String) (op : String), final_path existing op ∉ existing) ∧
    (∀ (existing : List String) (op : String), op ∉ existing →
      final_path existing op = op) ∧
    (∀ (existing : List String) (op : String), op ∈ existing →
      ∃ n, 1 ≤ n ∧ final_path existing op = candidate op n ∧
        candidate op n ∉ existing ∧
        ∀ m, 1 ≤ m → m < n → candidate op m ∈ existing) ∧
    (∀ (existing : List String) (outdir c p i : String),
      build_final_path existing outdir c p i =
        final_path existing
          (outdir ++ "\\" ++ (safe_filename c ++ "_" ++ p ++ "_" ++ i ++ ".pdf"))) ∧
    build_final_path ["out\\Co_HU1_123456789.pdf"] "out" "Co" "HU1" "123456789" =
      "out\\Co_HU1_123456789 (1).pdf" ∧
    build_final_path ["out\\Co_HU1_123456789.pdf", "out\\Co_HU1_123456789 (1).pdf"]
        "out" "Co" "HU1" "123456789" =
      "out\\Co_HU1_123456789 (2).pdf" := by
  refine ⟨?_, ?_, ?_, fun _ _ _ _ _ => rfl, by decide, by decide⟩
  · intro existing op
    obtain ⟨m, he, hf, _⟩ := final_path_least existing op
    rw [he]
    exact hf
  · intro existing op hop
    obtain ⟨m, he, hf, hleast⟩ := final_path_least existing op
    match m, he, hf, hleast with
    | 0, he, _, _ => exact he
    | k + 1, he, hf, hleast =>
      exact absurd (hleast 0 (Nat.succ_pos k)) hop
  · intro existing op hop
    obtain ⟨m, he, hf, hleast⟩ := final_path_least existing op
    have hm0 : m ≠ 0 := by
      intro h0
      rw [h0] at hf
      exact hf hop
    exact ⟨m, by omega, he, hf, fun k _ hk => hleast k hk⟩

/-- Witness for C8 at a concrete singleton existing set. -/
theorem C8_collision_policy_witness :
    ("x.pdf" : String) ∈ ["x.pdf"] ∧
    ∃ n, 1 ≤ n ∧ final_path ["x.pdf"] "x.pdf" = candidate "x.pdf" n ∧
      candidate "x.pdf" n ∉ ["x.pdf"] ∧
      ∀ m, 1 ≤ m → m < n → candidate "x.pdf" m ∈ ["x.pdf"] :=
  ⟨by decide, C8_collision_policy.2.2.1 ["x.pdf"] "x.pdf" (by decide)⟩

/-- C3: POD normalization is idempotent — for every string `s`,
`normalize_pod (normalize_pod s) = normalize_pod s` — and on the three
reference inputs it uppercases, collapses repeated hyphens, trims
leading and trailing hyphens, and removes whitespace as specified. -/
theorem C3_normalize_pod_idempotent :
    (∀ s : String, normalize_pod (normalize_pod s) = normalize_pod s) ∧
    normalize_pod "hu-12-34" = "HU-12-34" ∧
    normalize_pod "HU--12" = "HU-12" ∧
    normalize_pod " HU 12 " = "HU12" := by
  refine ⟨fun s => ?_, by decide, by decide, by decide⟩
  show String.mk (normChars (String.mk (normChars s.data)).data) = _
  rw [show (String.mk (normChars s.data)).data = normChars s.data from rfl, normChars_idem]
  rfl

end InvoiceAuto
